import Mathlib

/-!
Verification of the grid-based floor-tile registry and batched-rendering
subsystem (`CubeFloorRenderer`).

The renderer's static state is embedded as an explicit `RendererState`
record threaded through every operation:

* the tile registry (a JS `Map<string, CubeInfo>`) is an ordered
  association list: `set` on a fresh key appends at the end, `set` on an
  occupied key updates the entry in place, preserving its position —
  exactly the iteration-order semantics of a JS `Map`;
* the exclusion set (a JS `Set<string>`) is a duplicate-free ordered list;
* the scene-to-group map (`Map<Scene, Group>`) keys scenes by an abstract
  identifier and stores each group's drawable children;
* floating-point arithmetic in `getPathCoordinates` is idealized over `ℝ`,
  with `round` being Mathlib's `⌊x + 1/2⌋`, which agrees with JS
  `Math.round`; the remaining numeric fields use `ℚ` or `ℤ`.
-/

inductive CubeType where
  | room
  | hallway
  | overlap
deriving DecidableEq

structure CubePosition where
  x : Int
  y : Int
deriving DecidableEq

structure CubeInfo where
  position : CubePosition
  color : Nat
  type : CubeType
deriving DecidableEq

/-- Template literal `x,y` used as the canonical registry key. -/
def getCubeKey (x y : Int) : String :=
  toString x ++ "," ++ toString y

/-- Key of a coordinate record. -/
def keyOf (c : CubePosition) : String :=
  getCubeKey c.x c.y

/-- JS `Map.get`: first (and only) binding of a key in the ordered list. -/
def mapGet {α β : Type} [DecidableEq α] : List (α × β) → α → Option β
  | [], _ => none
  | (k', v) :: rest, k => if k' = k then some v else mapGet rest k

/-- JS `Map.set`: in-place update when the key is present (position in the
iteration order is preserved), append at the end when it is fresh. -/
def mapSet {α β : Type} [DecidableEq α] : List (α × β) → α → β → List (α × β)
  | [], k, v => [(k, v)]
  | (k', v') :: rest, k, v =>
    if k' = k then (k, v) :: rest else (k', v') :: mapSet rest k v

/-- JS `Set.add`: append unless already present. -/
def setAdd (s : List String) (k : String) : List String :=
  if k ∈ s then s else s ++ [k]

/-- One drawable primitive (a `THREE.Mesh` floor cube). -/
structure Drawable where
  cubeType : String
  posX : Rat
  posY : Rat
  posZ : Rat
  name : String
  castShadow : Bool
  receiveShadow : Bool
deriving DecidableEq

/-- The renderer's static state: tile registry, per-scene containers, and
the exclusion set. -/
structure RendererState where
  cubeRegistry : List (String × CubeInfo)
  sceneGroups : List (Nat × List Drawable)
  excludedCoordinates : List String
deriving DecidableEq

/-- The state at subsystem start: everything empty. -/
def initState : RendererState :=
  { cubeRegistry := [], sceneGroups := [], excludedCoordinates := [] }

/-- `clearRegistry()`: clears the registry and the exclusion set. -/
def clearRegistry (s : RendererState) : RendererState :=
  { s with cubeRegistry := [], excludedCoordinates := [] }

/-- `setExcludedCoordinates(coordinates)`: clears the exclusion set, then
adds the key of every given coordinate. -/
def setExcludedCoordinates (s : RendererState) (coordinates : List CubePosition) :
    RendererState :=
  { s with excludedCoordinates :=
      coordinates.foldl (fun acc coord => setAdd acc (getCubeKey coord.x coord.y)) [] }

/-- `unregisterCoordinates(coordinates)`: deletes each coordinate's record
from the registry (no-op per missing key). -/
def unregisterCoordinates (s : RendererState) (coordinates : List CubePosition) :
    RendererState :=
  { s with cubeRegistry :=
      (coordinates.foldl
        (fun reg coord => reg.filter (fun entry => entry.1 ≠ getCubeKey coord.x coord.y))
        s.cubeRegistry) }

/-- `getAllCoordinates()`: pushes each record's position in registry
iteration order. -/
def getAllCoordinates (s : RendererState) : List CubePosition :=
  s.cubeRegistry.foldl (fun acc entry => acc ++ [entry.2.position]) []

/-- The body of the `forEach` in `registerCubes`, processing one
coordinate: skip if excluded; overwrite to the purple overlap record if the
key is occupied; insert a fresh record otherwise. -/
def registerCube (excluded : List String) (color : Nat) (type : CubeType)
    (reg : List (String × CubeInfo)) (coord : CubePosition) :
    List (String × CubeInfo) :=
  let key := getCubeKey coord.x coord.y
  if key ∈ excluded then reg
  else
    match mapGet reg key with
    | some _ =>
      mapSet reg key { position := coord, color := 0x800080, type := CubeType.overlap }
    | none =>
      mapSet reg key { position := coord, color := color, type := type }

/-- `registerCubes(coordinates, color, type)`: processes the batch in
order against the current exclusion set. -/
def registerCubes (s : RendererState) (coordinates : List CubePosition)
    (color : Nat) (type : CubeType) : RendererState :=
  { s with cubeRegistry :=
      coordinates.foldl (registerCube s.excludedCoordinates color type) s.cubeRegistry }

/-- The `'room' | 'hallway' | 'overlap'` tag as it appears in mesh names. -/
def typeTag : CubeType → String
  | CubeType.room => "room"
  | CubeType.hallway => "hallway"
  | CubeType.overlap => "overlap"

/-- One floor-cube mesh built by `renderAllCubes` for a registry record:
overlap and hallway records use the `hallway-floor` texture, room records
the `room-floor` texture; the cube sits at
`(x * cubeSize, yOffset + cubeSize / 2, y * cubeSize)`. -/
def renderCube (cubeInfo : CubeInfo) (cubeSize yOffset : Rat) : Drawable :=
  { cubeType :=
      match cubeInfo.type with
      | CubeType.overlap => "hallway-floor"
      | CubeType.hallway => "hallway-floor"
      | CubeType.room => "room-floor"
    posX := cubeInfo.position.x * cubeSize
    posY := yOffset + cubeSize / 2
    posZ := cubeInfo.position.y * cubeSize
    name := "FloorCube_" ++ typeTag cubeInfo.type ++ "_" ++
      toString cubeInfo.position.x ++ "_" ++ toString cubeInfo.position.y
    castShadow := true
    receiveShadow := true }

/-- `renderAllCubes(scene, options)`: get or lazily create (and attach)
the scene's group, clear it, then add one cube per non-excluded registry
record in registry iteration order. Returns the updated state and the
group's contents (the function's return value). -/
def renderAllCubes (s : RendererState) (scene : Nat) (cubeSize yOffset : Rat) :
    RendererState × List Drawable :=
  let sceneGroups0 :=
    match mapGet s.sceneGroups scene with
    | some _ => s.sceneGroups
    | none => mapSet s.sceneGroups scene []
  let sceneGroup := s.cubeRegistry.foldl
    (fun acc entry =>
      if entry.1 ∈ s.excludedCoordinates then acc
      else acc ++ [renderCube entry.2 cubeSize yOffset]) []
  ({ s with sceneGroups := mapSet sceneGroups0 scene sceneGroup }, sceneGroup)

/-- The ascending `for (let v = a; v <= b; v++)` loop: empty when `b < a`. -/
def intRange (a b : Int) : List Int :=
  (List.range (b + 1 - a).toNat).map (fun i : Nat => a + (i : Int))

/-- `getAreaCoordinates(startX, startY, endX, endY)`: literal ascending
double loop, `x` outermost, `y` innermost. -/
def getAreaCoordinates (startX startY endX endY : Int) : List CubePosition :=
  (intRange startX endX).flatMap (fun x =>
    (intRange startY endY).map (fun y => { x := x, y := y }))

/-- The JS `filter((coord, index, arr) => arr.findIndex(...) === index)`
duplicate removal: keep an element exactly when its index is the first
index at which its value occurs. -/
def dedupFirst (l : List CubePosition) : List CubePosition :=
  (l.enum.filter
    (fun p => decide (l.findIdx? (fun c => decide (c = p.2)) = some p.1))).map Prod.snd

/-- The first index at which a value occurs in a list (the JS
`findIndex`): used to state that duplicate removal keeps values in the
order of their first occurrence. -/
def firstIdx (l : List CubePosition) (c : CubePosition) : Option Nat :=
  l.findIdx? (fun d => decide (d = c))

/-- The coordinate list generated by the step/offset double loop of
`getPathCoordinates` before duplicate removal, idealized over `ℝ`. -/
noncomputable def pathRaw (startX startY endX endY : ℝ) (width : ℤ) :
    List CubePosition :=
  let dx := endX - startX
  let dy := endY - startY
  let length := Real.sqrt (dx * dx + dy * dy)
  let dirX := dx / length
  let dirY := dy / length
  let perpX := -dirY
  let perpY := dirX
  let steps := (⌈length⌉ + 1).toNat
  (List.range steps).flatMap (fun i : Nat =>
    let t : ℝ := (i : ℝ) / ((steps : ℝ) - 1)
    let centerX := startX + dirX * length * t
    let centerY := startY + dirY * length * t
    (List.range width.toNat).map (fun w : Nat =>
      let widthOffset : ℝ := (w : ℝ) - ((Int.fdiv width 2 : ℤ) : ℝ)
      { x := round (centerX + perpX * widthOffset)
        y := round (centerY + perpY * widthOffset) }))

/-- `getPathCoordinates(startX, startY, endX, endY, width)`: single
rounded point when the segment has zero length, otherwise the step/offset
list with duplicates removed. -/
noncomputable def getPathCoordinates (startX startY endX endY : ℝ) (width : ℤ) :
    List CubePosition :=
  let dx := endX - startX
  let dy := endY - startY
  let length := Real.sqrt (dx * dx + dy * dy)
  if length = 0 then [{ x := round startX, y := round startY }]
  else dedupFirst (pathRaw startX startY endX endY width)

/-- `dispose()`: clears the registry and the exclusion set, detaches every
tracked group from its scene (second component: the scenes detached from,
whose groups' geometry and paint resources are released), and forgets all
scene-to-group associations. -/
def dispose (s : RendererState) : RendererState × List Nat :=
  ({ cubeRegistry := [], sceneGroups := [], excludedCoordinates := [] },
   s.sceneGroups.map Prod.fst)

/-! ### Association-list (JS `Map`) lemmas -/

theorem mapGet_mapSet_self {α β : Type} [DecidableEq α]
    (m : List (α × β)) (k : α) (v : β) : mapGet (mapSet m k v) k = some v := by
  induction m with
  | nil => simp [mapGet, mapSet]
  | cons e rest ih =>
    obtain ⟨k', v'⟩ := e
    by_cases h : k' = k <;> simp [mapGet, mapSet, h, ih]

theorem mapGet_mapSet_ne {α β : Type} [DecidableEq α]
    (m : List (α × β)) (k k' : α) (v : β) (h : k ≠ k') :
    mapGet (mapSet m k v) k' = mapGet m k' := by
  induction m with
  | nil => simp [mapGet, mapSet, h]
  | cons e rest ih =>
    obtain ⟨k'', v''⟩ := e
    by_cases h2 : k'' = k
    · subst h2
      simp [mapGet, mapSet, h]
    · simp [mapGet, mapSet, h2, ih]

theorem mapSet_fst_of_occupied {α β : Type} [DecidableEq α]
    (m : List (α × β)) (k : α) (v : β) (h : mapGet m k ≠ none) :
    (mapSet m k v).map Prod.fst = m.map Prod.fst := by
  induction m with
  | nil => simp [mapGet] at h
  | cons e rest ih =>
    obtain ⟨k', v'⟩ := e
    by_cases h2 : k' = k
    · subst h2
      simp [mapSet]
    · simp [mapGet, h2] at h
      simp [mapSet, h2, ih h]

theorem mapSet_fst_of_fresh {α β : Type} [DecidableEq α]
    (m : List (α × β)) (k : α) (v : β) (h : mapGet m k = none) :
    (mapSet m k v).map Prod.fst = m.map Prod.fst ++ [k] := by
  induction m with
  | nil => simp [mapSet]
  | cons e rest ih =>
    obtain ⟨k', v'⟩ := e
    by_cases h2 : k' = k
    · simp [mapGet, h2] at h
    · simp [mapGet, h2] at h
      simp [mapSet, h2, ih h]

theorem mem_setAdd (a : List String) (x k : String) :
    k ∈ setAdd a x ↔ k ∈ a ∨ k = x := by
  unfold setAdd
  by_cases hx : x ∈ a
  · simp only [if_pos hx]
    exact ⟨Or.inl, fun h => h.elim id (fun h' => h' ▸ hx)⟩
  · simp [if_neg hx]

/-! ### Registration step lemmas -/

theorem registerCube_excluded (excluded : List String) (color : Nat) (ty : CubeType)
    (reg : List (String × CubeInfo)) (c : CubePosition)
    (h : keyOf c ∈ excluded) :
    registerCube excluded color ty reg c = reg := by
  simp [registerCube, keyOf] at h ⊢
  simp [h]

theorem registerCube_get_ne (excluded : List String) (color : Nat) (ty : CubeType)
    (reg : List (String × CubeInfo)) (c : CubePosition) (k : String)
    (h : keyOf c ≠ k) :
    mapGet (registerCube excluded color ty reg c) k = mapGet reg k := by
  simp only [registerCube, keyOf] at h ⊢
  split
  · rfl
  · split <;> exact mapGet_mapSet_ne _ _ _ _ h

theorem registerCube_overwrites (excluded : List String) (color : Nat) (ty : CubeType)
    (reg : List (String × CubeInfo)) (c : CubePosition)
    (hex : keyOf c ∉ excluded) (hocc : mapGet reg (keyOf c) ≠ none) :
    mapGet (registerCube excluded color ty reg c) (keyOf c) =
      some { position := c, color := 0x800080, type := CubeType.overlap } := by
  simp only [registerCube, keyOf] at hex hocc ⊢
  rw [if_neg hex]
  split
  · exact mapGet_mapSet_self _ _ _
  · simp_all

theorem registerCube_get_self_isSome (excluded : List String) (color : Nat) (ty : CubeType)
    (reg : List (String × CubeInfo)) (c : CubePosition)
    (hex : keyOf c ∉ excluded) :
    mapGet (registerCube excluded color ty reg c) (keyOf c) ≠ none := by
  simp only [registerCube, keyOf] at hex ⊢
  rw [if_neg hex]
  split <;> simp [mapGet_mapSet_self]

theorem registerCube_occupied_mono (excluded : List String) (color : Nat) (ty : CubeType)
    (reg : List (String × CubeInfo)) (c : CubePosition) (k : String)
    (hocc : mapGet reg k ≠ none) :
    mapGet (registerCube excluded color ty reg c) k ≠ none := by
  by_cases h : keyOf c = k
  · subst h
    by_cases hex : keyOf c ∈ excluded
    · rw [registerCube_excluded _ _ _ _ _ hex]
      exact hocc
    · exact registerCube_get_self_isSome _ _ _ _ _ hex
  · rw [registerCube_get_ne _ _ _ _ _ _ h]
    exact hocc

/-! ### Batch registration lemmas -/

theorem registerFold_get_excluded (excl : List String) (color : Nat) (ty : CubeType)
    (coords : List CubePosition) (reg : List (String × CubeInfo)) (k : String)
    (hk : k ∈ excl) :
    mapGet (coords.foldl (registerCube excl color ty) reg) k = mapGet reg k := by
  induction coords generalizing reg with
  | nil => rfl
  | cons c cs ih =>
    rw [List.foldl_cons, ih]
    by_cases hc : keyOf c ∈ excl
    · rw [registerCube_excluded _ _ _ _ _ hc]
    · exact registerCube_get_ne _ _ _ _ _ _ (fun h => hc (h ▸ hk))

theorem registerFold_overlap_stable (excl : List String) (color : Nat) (ty : CubeType)
    (coords : List CubePosition) (reg : List (String × CubeInfo)) (k : String)
    (h : ∃ p, mapGet reg k =
      some { position := p, color := 0x800080, type := CubeType.overlap }) :
    ∃ p, mapGet (coords.foldl (registerCube excl color ty) reg) k =
      some { position := p, color := 0x800080, type := CubeType.overlap } := by
  induction coords generalizing reg with
  | nil => exact h
  | cons c cs ih =>
    rw [List.foldl_cons]
    apply ih
    obtain ⟨p, hp⟩ := h
    by_cases hex : keyOf c ∈ excl
    · exact ⟨p, by rw [registerCube_excluded _ _ _ _ _ hex]; exact hp⟩
    · by_cases hck : keyOf c = k
      · subst hck
        exact ⟨c, registerCube_overwrites _ _ _ _ _ hex (by simp [hp])⟩
      · exact ⟨p, by rw [registerCube_get_ne _ _ _ _ _ _ hck]; exact hp⟩

theorem registerFold_overlap_main (excl : List String) (color : Nat) (ty : CubeType)
    (coords : List CubePosition) (reg : List (String × CubeInfo)) (k : String)
    (hex : k ∉ excl)
    (h : (mapGet reg k ≠ none ∧ k ∈ coords.map keyOf) ∨
      2 ≤ (coords.map keyOf).count k) :
    ∃ p, mapGet (coords.foldl (registerCube excl color ty) reg) k =
      some { position := p, color := 0x800080, type := CubeType.overlap } := by
  induction coords generalizing reg with
  | nil =>
    rcases h with ⟨_, hmem⟩ | hcount
    · simp at hmem
    · simp at hcount
  | cons c cs ih =>
    rw [List.foldl_cons]
    by_cases hck : keyOf c = k
    · subst hck
      rcases h with ⟨hocc, _⟩ | hcount
      · have hover := registerCube_overwrites excl color ty reg c hex hocc
        exact registerFold_overlap_stable _ _ _ _ _ _ ⟨c, hover⟩
      · have hmem : keyOf c ∈ cs.map keyOf := by
          rw [List.map_cons, List.count_cons] at hcount
          simp only [beq_self_eq_true, if_true] at hcount
          have : 1 ≤ (cs.map keyOf).count (keyOf c) := by omega
          exact List.count_pos_iff.mp this
        exact ih _ (Or.inl ⟨registerCube_get_self_isSome _ _ _ _ _ hex, hmem⟩)
    · have hget := registerCube_get_ne excl color ty reg c k hck
      rcases h with ⟨hocc, hmem⟩ | hcount
      · have hmem' : k ∈ cs.map keyOf := by
          rw [List.map_cons] at hmem
          rcases List.mem_cons.mp hmem with h1 | h1
          · exact absurd h1.symm hck
          · exact h1
        exact ih _ (Or.inl ⟨by rw [hget]; exact hocc, hmem'⟩)
      · have hcount' : 2 ≤ (cs.map keyOf).count k := by
          rw [List.map_cons, List.count_cons] at hcount
          have hbeq : (keyOf c == k) = false := beq_eq_false_iff_ne.mpr hck
          rw [hbeq] at hcount
          simpa using hcount
        exact ih _ (Or.inr hcount')

/-! ### Fold and range lemmas -/

theorem foldl_push_eq_map {α β : Type} (l : List α) (f : α → β) (acc : List β) :
    l.foldl (fun acc e => acc ++ [f e]) acc = acc ++ l.map f := by
  induction l generalizing acc with
  | nil => simp
  | cons a l ih => simp [List.foldl_cons, ih]

theorem foldl_keep_eq_filter_map {α β : Type} (l : List α) (q : α → Prop)
    [DecidablePred q] (f : α → β) (acc : List β) :
    l.foldl (fun acc e => if q e then acc else acc ++ [f e]) acc =
      acc ++ (l.filter (fun e => decide ¬ q e)).map f := by
  induction l generalizing acc with
  | nil => simp
  | cons a l ih =>
    by_cases h : q a
    · simp [List.foldl_cons, if_pos h, ih, List.filter_cons, h]
    · simp [List.foldl_cons, if_neg h, ih, List.filter_cons, h]

theorem registerCube_fst_extend (excl : List String) (color : Nat) (ty : CubeType)
    (reg : List (String × CubeInfo)) (c : CubePosition) :
    ∃ t, (registerCube excl color ty reg c).map Prod.fst = reg.map Prod.fst ++ t := by
  by_cases hex : keyOf c ∈ excl
  · exact ⟨[], by rw [registerCube_excluded _ _ _ _ _ hex]; simp⟩
  · simp only [registerCube, keyOf] at hex ⊢
    rw [if_neg hex]
    rcases hocc : mapGet reg (getCubeKey c.x c.y) with _ | v
    · exact ⟨[getCubeKey c.x c.y], mapSet_fst_of_fresh _ _ _ hocc⟩
    · exact ⟨[], by rw [mapSet_fst_of_occupied _ _ _ (by simp [hocc])]; simp⟩

theorem registerFold_fst_extend (excl : List String) (color : Nat) (ty : CubeType)
    (coords : List CubePosition) (reg : List (String × CubeInfo)) :
    ∃ t, (coords.foldl (registerCube excl color ty) reg).map Prod.fst =
      reg.map Prod.fst ++ t := by
  induction coords generalizing reg with
  | nil => exact ⟨[], by simp⟩
  | cons c cs ih =>
    rw [List.foldl_cons]
    obtain ⟨t1, h1⟩ := registerCube_fst_extend excl color ty reg c
    obtain ⟨t2, h2⟩ := ih (registerCube excl color ty reg c)
    exact ⟨t1 ++ t2, by rw [h2, h1, List.append_assoc]⟩

theorem mem_intRange (a b x : Int) : x ∈ intRange a b ↔ a ≤ x ∧ x ≤ b := by
  unfold intRange
  rw [List.mem_map]
  constructor
  · rintro ⟨i, hi, rfl⟩
    rw [List.mem_range] at hi
    omega
  · rintro ⟨h1, h2⟩
    refine ⟨(x - a).toNat, ?_, ?_⟩
    · rw [List.mem_range]
      omega
    · omega

theorem intRange_sorted (a b : Int) :
    List.Pairwise (fun u v : Int => u < v) (intRange a b) := by
  unfold intRange
  rw [List.pairwise_map]
  exact (List.pairwise_lt_range _).imp (fun h => by omega)

theorem intRange_empty (a b : Int) (h : b < a) : intRange a b = [] := by
  unfold intRange
  have : (b + 1 - a).toNat = 0 := by omega
  simp [this]

theorem mem_foldl_setAdd (coords : List CubePosition) (acc : List String) (k : String) :
    k ∈ coords.foldl (fun a c => setAdd a (getCubeKey c.x c.y)) acc ↔
      k ∈ acc ∨ k ∈ coords.map keyOf := by
  induction coords generalizing acc with
  | nil => simp
  | cons c cs ih =>
    rw [List.foldl_cons, ih, mem_setAdd, List.map_cons]
    simp only [List.mem_cons, keyOf]
    constructor
    · rintro ((h | h) | h)
      · exact Or.inl h
      · exact Or.inr (Or.inl h)
      · exact Or.inr (Or.inr h)
    · rintro (h | h | h)
      · exact Or.inl (Or.inl h)
      · exact Or.inl (Or.inr h)
      · exact Or.inr h

/-! ### Duplicate-removal lemmas -/

theorem dedupFirst_sublist (l : List CubePosition) : (dedupFirst l).Sublist l := by
  unfold dedupFirst
  have h2 := (List.filter_sublist
    (p := fun p : Nat × CubePosition =>
      decide (l.findIdx? (fun c => decide (c = p.2)) = some p.1)) l.enum).map Prod.snd
  rwa [List.enum_map_snd] at h2

theorem dedupFirst_nodup (l : List CubePosition) : (dedupFirst l).Nodup := by
  unfold dedupFirst
  have henum : l.enum.Nodup := by
    have h := List.nodup_range l.length
    rw [← List.enum_map_fst l] at h
    exact h.of_map _
  refine (henum.filter _).map_on ?_
  intro p hp q hq hpq
  rw [List.mem_filter] at hp hq
  have hp2 := of_decide_eq_true hp.2
  have hq2 := of_decide_eq_true hq.2
  rw [hpq] at hp2
  have h1 : some p.1 = some q.1 := by rw [← hp2, ← hq2]
  exact Prod.ext_iff.mpr ⟨Option.some_injective _ h1, hpq⟩

theorem mem_dedupFirst (l : List CubePosition) (c : CubePosition) :
    c ∈ dedupFirst l ↔ c ∈ l := by
  constructor
  · exact fun h => (dedupFirst_sublist l).subset h
  · intro h
    have hne : l.findIdx? (fun d => decide (d = c)) ≠ none := by
      intro hnone
      rw [List.findIdx?_eq_none_iff] at hnone
      have hcc := hnone c h
      simp at hcc
    obtain ⟨i, hi⟩ := Option.ne_none_iff_exists'.mp hne
    obtain ⟨hlen, hfind⟩ := List.findIdx?_eq_some_iff_findIdx_eq.mp hi
    have hgi := @List.findIdx_getElem _ (fun d => decide (d = c)) l
      (by rw [hfind]; exact hlen)
    simp only [hfind] at hgi
    have hic : l[i] = c := of_decide_eq_true hgi
    unfold dedupFirst
    rw [List.mem_map]
    refine ⟨(i, c), List.mem_filter.mpr ⟨?_, ?_⟩, rfl⟩
    · rw [List.mem_enum_iff_getElem?]
      rw [List.getElem?_eq_getElem hlen, hic]
    · exact decide_eq_true hi
  
theorem dedupFirst_ne_nil (l : List CubePosition) (h : l ≠ []) : dedupFirst l ≠ [] := by
  obtain ⟨c, hc⟩ := List.exists_mem_of_ne_nil l h
  exact List.ne_nil_of_mem ((mem_dedupFirst l c).mpr hc)

theorem dedupFirst_pairwise_firstIdx (l : List CubePosition) :
    List.Pairwise (fun c d => ∀ i j, firstIdx l c = some i →
      firstIdx l d = some j → i < j) (dedupFirst l) := by
  unfold dedupFirst
  rw [List.pairwise_map]
  have henum : List.Pairwise (fun p q : Nat × CubePosition => p.1 < q.1) l.enum := by
    have h := List.pairwise_lt_range l.length
    rw [← List.enum_map_fst l, List.pairwise_map] at h
    exact h
  have hfil := henum.filter
    (fun p : Nat × CubePosition =>
      decide (l.findIdx? (fun c => decide (c = p.2)) = some p.1))
  refine hfil.imp_of_mem ?_
  intro p q hp hq hlt i j hi hj
  have hp0 := List.of_mem_filter hp
  have hq0 := List.of_mem_filter hq
  simp only [decide_eq_true_eq] at hp0 hq0
  have hi' : firstIdx l p.2 = some p.1 := hp0
  have hj' : firstIdx l q.2 = some q.1 := hq0
  rw [hi'] at hi
  rw [hj'] at hj
  rw [← Option.some.inj hi, ← Option.some.inj hj]
  exact hlt

/-! ### Claim theorems -/

/-- C1: whenever `registerCubes` processes a coordinate whose key is not in
the exclusion set and for which a record already exists — whether from a
prior call or from an earlier duplicate coordinate in the same batch — the
record at that key ends up with classification Overlap and the fixed
overlap color `0x800080`, regardless of the previous or new classification,
including when the two classifications are identical. -/
theorem registerCubes_second_write_overlap
    (s : RendererState) (coords : List CubePosition) (color : Nat) (ty : CubeType)
    (c : CubePosition) (hc : c ∈ coords)
    (hex : keyOf c ∉ s.excludedCoordinates)
    (hocc : mapGet s.cubeRegistry (keyOf c) ≠ none ∨
      2 ≤ (coords.map keyOf).count (keyOf c)) :
    ∃ p, mapGet (registerCubes s coords color ty).cubeRegistry (keyOf c) =
      some { position := p, color := 0x800080, type := CubeType.overlap } := by
  have hmem : keyOf c ∈ coords.map keyOf := List.mem_map.mpr ⟨c, hc, rfl⟩
  exact registerFold_overlap_main s.excludedCoordinates color ty coords
    s.cubeRegistry (keyOf c) hex (hocc.elim (fun h => Or.inl ⟨h, hmem⟩) Or.inr)

/-- C1 witness: a coordinate registered as Room and re-registered as
Hallway resolves to the Overlap record with color `0x800080`. -/
theorem registerCubes_second_write_overlap_witness :
    (⟨1, 2⟩ : CubePosition) ∈ [(⟨1, 2⟩ : CubePosition)] ∧
    keyOf ⟨1, 2⟩ ∉ (RendererState.mk [("1,2", ⟨⟨1, 2⟩, 5, CubeType.room⟩)] [] []).excludedCoordinates ∧
    ∃ p, mapGet (registerCubes (RendererState.mk [("1,2", ⟨⟨1, 2⟩, 5, CubeType.room⟩)] [] [])
        [⟨1, 2⟩] 7 CubeType.hallway).cubeRegistry (keyOf ⟨1, 2⟩) =
      some { position := p, color := 0x800080, type := CubeType.overlap } :=
  ⟨by decide, by decide,
    registerCubes_second_write_overlap _ [⟨1, 2⟩] 7 CubeType.hallway ⟨1, 2⟩
      (by decide) (by decide) (Or.inl (by decide))⟩

/-- C2: for every coordinate whose key is in the exclusion set at the time
of the call, `registerCubes` is a no-op for that key: no record is created
there and an existing record is left exactly as it was; the exclusion set
itself is also untouched. -/
theorem registerCubes_excluded_noop
    (s : RendererState) (coords : List CubePosition) (color : Nat) (ty : CubeType)
    (c : CubePosition) (hex : keyOf c ∈ s.excludedCoordinates) :
    mapGet (registerCubes s coords color ty).cubeRegistry (keyOf c) =
      mapGet s.cubeRegistry (keyOf c) ∧
    (registerCubes s coords color ty).excludedCoordinates = s.excludedCoordinates :=
  ⟨registerFold_get_excluded _ _ _ _ _ _ hex, rfl⟩

/-- C2 witness: registering an excluded coordinate creates no record. -/
theorem registerCubes_excluded_noop_witness :
    keyOf ⟨1, 2⟩ ∈ (RendererState.mk [] [] ["1,2"]).excludedCoordinates ∧
    mapGet (registerCubes (RendererState.mk [] [] ["1,2"]) [⟨1, 2⟩] 5 CubeType.room).cubeRegistry
        (keyOf ⟨1, 2⟩) =
      mapGet (RendererState.mk [] [] ["1,2"]).cubeRegistry (keyOf ⟨1, 2⟩) :=
  ⟨by decide,
    (registerCubes_excluded_noop (RendererState.mk [] [] ["1,2"]) [⟨1, 2⟩] 5
      CubeType.room ⟨1, 2⟩ (by decide)).1⟩

/-- C7: `setExcludedCoordinates` leaves the registry completely unchanged,
is idempotent for the same input, and replaces the entire exclusion set
with exactly the keys of the given coordinates (prior exclusions not in
the input are dropped). -/
theorem setExcludedCoordinates_spec (s : RendererState) (coords : List CubePosition) :
    (setExcludedCoordinates s coords).cubeRegistry = s.cubeRegistry ∧
    setExcludedCoordinates (setExcludedCoordinates s coords) coords =
      setExcludedCoordinates s coords ∧
    ∀ k, k ∈ (setExcludedCoordinates s coords).excludedCoordinates ↔
      k ∈ coords.map keyOf := by
  refine ⟨rfl, rfl, fun k => ?_⟩
  have h := mem_foldl_setAdd coords [] k
  refine h.trans ?_
  constructor
  · rintro (h1 | h1)
    · exact absurd h1 (List.not_mem_nil k)
    · exact h1
  · exact Or.inr

/-- C8: `dispose()` restores the initial empty state (registry, exclusion
set and surface associations all empty) after detaching every tracked
container; a second `dispose()` is a tolerated no-op; afterwards
`renderAllCubes` on a fresh surface behaves exactly as on a newly
initialized subsystem and yields an empty container. -/
theorem dispose_spec (s : RendererState) (scene : Nat) (cs yo : Rat) :
    (dispose s).1 = initState ∧
    dispose (dispose s).1 = (initState, []) ∧
    (dispose s).2 = s.sceneGroups.map Prod.fst ∧
    renderAllCubes (dispose s).1 scene cs yo = renderAllCubes initState scene cs yo ∧
    (renderAllCubes (dispose s).1 scene cs yo).2 = [] :=
  ⟨rfl, rfl, rfl, rfl, rfl⟩

/-- C9: `renderAllCubes` never mutates the tile registry or the exclusion
set: both components of the state are unchanged by the call. -/
theorem renderAllCubes_frame (s : RendererState) (scene : Nat) (cs yo : Rat) :
    (renderAllCubes s scene cs yo).1.cubeRegistry = s.cubeRegistry ∧
    (renderAllCubes s scene cs yo).1.excludedCoordinates = s.excludedCoordinates :=
  ⟨rfl, rfl⟩

/-- C10: `getAllCoordinates` returns the position of every registered
record — excluded and Overlap records included — in registry iteration
order, and a `registerCubes` batch only ever appends new keys at the end
of that order, so the position of a key rewritten to Overlap (and of every
previously inserted key) is preserved. -/
theorem getAllCoordinates_order_spec
    (s : RendererState) (coords : List CubePosition) (color : Nat) (ty : CubeType) :
    getAllCoordinates s = s.cubeRegistry.map (fun e => e.2.position) ∧
    ∃ t, (registerCubes s coords color ty).cubeRegistry.map Prod.fst =
      s.cubeRegistry.map Prod.fst ++ t := by
  constructor
  · have h := foldl_push_eq_map s.cubeRegistry
      (fun e : String × CubeInfo => e.2.position) []
    rw [List.nil_append] at h
    exact h
  · exact registerFold_fst_extend _ _ _ _ _

/-- C3: `renderAllCubes` adds to the surface's container exactly one
drawable per registry record whose key is not in the exclusion set at
render time (excluded records, even pre-existing ones, produce no
drawable), and the paint descriptor is selected by classification: Overlap
and Hallway both resolve to "hallway-floor" while Room resolves to
"room-floor". -/
theorem renderAllCubes_materializes_non_excluded
    (s : RendererState) (scene : Nat) (cs yo : Rat) :
    (renderAllCubes s scene cs yo).2 =
      (s.cubeRegistry.filter
        (fun e => decide (e.1 ∉ s.excludedCoordinates))).map
        (fun e => renderCube e.2 cs yo) ∧
    mapGet (renderAllCubes s scene cs yo).1.sceneGroups scene =
      some (renderAllCubes s scene cs yo).2 ∧
    ∀ info : CubeInfo, (renderCube info cs yo).cubeType =
      match info.type with
      | CubeType.room => "room-floor"
      | CubeType.hallway => "hallway-floor"
      | CubeType.overlap => "hallway-floor" := by
  refine ⟨?_, mapGet_mapSet_self _ _ _, ?_⟩
  · have h := foldl_keep_eq_filter_map s.cubeRegistry
      (fun e : String × CubeInfo => e.1 ∈ s.excludedCoordinates)
      (fun e : String × CubeInfo => renderCube e.2 cs yo) []
    rw [List.nil_append] at h
    exact h
  · intro info
    cases h : info.type <;> simp [renderCube, h]

/-- C6: re-materialization is idempotent, not cumulative: a second
`renderAllCubes` on the same surface with registry and exclusion set
unchanged produces the same drawables (hence the same count), each call
leaves the container holding exactly its result, and the second call
creates no new container (the surface-to-container keys are unchanged). -/
theorem renderAllCubes_idempotent (s : RendererState) (scene : Nat) (cs yo : Rat) :
    (renderAllCubes (renderAllCubes s scene cs yo).1 scene cs yo).2 =
      (renderAllCubes s scene cs yo).2 ∧
    mapGet (renderAllCubes s scene cs yo).1.sceneGroups scene =
      some (renderAllCubes s scene cs yo).2 ∧
    (renderAllCubes (renderAllCubes s scene cs yo).1 scene cs yo).1.sceneGroups.map
        Prod.fst =
      (renderAllCubes s scene cs yo).1.sceneGroups.map Prod.fst := by
  refine ⟨rfl, mapGet_mapSet_self _ _ _, ?_⟩
  simp only [renderAllCubes, mapGet_mapSet_self]
  apply mapSet_fst_of_occupied
  rw [mapGet_mapSet_self]
  simp

/-- C4: `getAreaCoordinates` returns exactly the integer pairs of the
inclusive rectangle, enumerated with x ascending outermost and y ascending
innermost; a reversed range on either axis yields the empty sequence; and
the (0,0)-(2,1) call returns exactly the six listed points. -/
theorem getAreaCoordinates_spec (sx sy ex ey : Int) :
    (∀ c : CubePosition, c ∈ getAreaCoordinates sx sy ex ey ↔
      sx ≤ c.x ∧ c.x ≤ ex ∧ sy ≤ c.y ∧ c.y ≤ ey) ∧
    List.Pairwise (fun a b : CubePosition => a.x < b.x ∨ (a.x = b.x ∧ a.y < b.y))
      (getAreaCoordinates sx sy ex ey) ∧
    ((ex < sx ∨ ey < sy) → getAreaCoordinates sx sy ex ey = []) ∧
    getAreaCoordinates 0 0 2 1 = [⟨0, 0⟩, ⟨0, 1⟩, ⟨1, 0⟩, ⟨1, 1⟩, ⟨2, 0⟩, ⟨2, 1⟩] := by
  refine ⟨?_, ?_, ?_, by decide⟩
  · intro c
    unfold getAreaCoordinates
    rw [List.mem_flatMap]
    constructor
    · rintro ⟨x, hx, hc⟩
      rw [List.mem_map] at hc
      obtain ⟨y, hy, rfl⟩ := hc
      rw [mem_intRange] at hx hy
      exact ⟨hx.1, hx.2, hy.1, hy.2⟩
    · rintro ⟨h1, h2, h3, h4⟩
      refine ⟨c.x, (mem_intRange _ _ _).mpr ⟨h1, h2⟩, ?_⟩
      rw [List.mem_map]
      exact ⟨c.y, (mem_intRange _ _ _).mpr ⟨h3, h4⟩, rfl⟩
  · unfold getAreaCoordinates
    rw [List.pairwise_flatMap]
    constructor
    · intro x hx
      rw [List.pairwise_map]
      exact (intRange_sorted sy ey).imp (fun h => Or.inr ⟨rfl, h⟩)
    · refine (intRange_sorted sx ex).imp ?_
      intro a b hab c1 hc1 c2 hc2
      rw [List.mem_map] at hc1 hc2
      obtain ⟨y1, _, rfl⟩ := hc1
      obtain ⟨y2, _, rfl⟩ := hc2
      exact Or.inl hab
  · rintro (h | h)
    · unfold getAreaCoordinates
      rw [intRange_empty _ _ h]
      rfl
    · unfold getAreaCoordinates
      rw [intRange_empty _ _ h]
      simp

/-- C4 witness: a reversed x-range produces the empty sequence. -/
theorem getAreaCoordinates_spec_witness : getAreaCoordinates 3 0 2 5 = [] :=
  (getAreaCoordinates_spec 3 0 2 5).2.2.1 (Or.inl (by decide))

/-- C5: `getPathCoordinates` returns exactly the single rounded start
point when start equals end; otherwise, for any distinct endpoints and
width ≥ 1, the result is non-empty, consists of integer grid coordinates
(by construction of the codomain), contains no two equal elements, and is
the generated step/offset list with every value kept at its first
occurrence, in order: it is a sublist of the generated list with the same
elements, listed in strictly increasing order of first-occurrence index in
the generated list. -/
theorem getPathCoordinates_spec (sx sy ex ey : ℝ) (width : ℤ) :
    (sx = ex ∧ sy = ey →
      getPathCoordinates sx sy ex ey width = [⟨round sx, round sy⟩]) ∧
    (¬(sx = ex ∧ sy = ey) → 1 ≤ width →
      getPathCoordinates sx sy ex ey width ≠ [] ∧
      (getPathCoordinates sx sy ex ey width).Nodup ∧
      (getPathCoordinates sx sy ex ey width).Sublist (pathRaw sx sy ex ey width) ∧
      (∀ c, c ∈ pathRaw sx sy ex ey width ↔
        c ∈ getPathCoordinates sx sy ex ey width) ∧
      List.Pairwise (fun c d => ∀ i j,
        firstIdx (pathRaw sx sy ex ey width) c = some i →
        firstIdx (pathRaw sx sy ex ey width) d = some j → i < j)
        (getPathCoordinates sx sy ex ey width)) := by
  constructor
  · rintro ⟨rfl, rfl⟩
    show (if Real.sqrt ((sx - sx) * (sx - sx) + (sy - sy) * (sy - sy)) = 0 then
        [({ x := round sx, y := round sy } : CubePosition)]
      else dedupFirst (pathRaw sx sy sx sy width)) =
      [({ x := round sx, y := round sy } : CubePosition)]
    rw [if_pos (by simp [sub_self])]
  · intro hne hw
    have hpos : 0 < (ex - sx) * (ex - sx) + (ey - sy) * (ey - sy) := by
      rcases not_and_or.mp hne with h1 | h1
      · exact add_pos_of_pos_of_nonneg
          (mul_self_pos.mpr (sub_ne_zero.mpr (Ne.symm h1))) (mul_self_nonneg _)
      · exact add_pos_of_nonneg_of_pos
          (mul_self_nonneg _) (mul_self_pos.mpr (sub_ne_zero.mpr (Ne.symm h1)))
    have hLpos : 0 < Real.sqrt ((ex - sx) * (ex - sx) + (ey - sy) * (ey - sy)) :=
      Real.sqrt_pos.mpr hpos
    have hL0 : ¬ Real.sqrt ((ex - sx) * (ex - sx) + (ey - sy) * (ey - sy)) = 0 :=
      ne_of_gt hLpos
    have hgp : getPathCoordinates sx sy ex ey width =
        dedupFirst (pathRaw sx sy ex ey width) := by
      show (if Real.sqrt ((ex - sx) * (ex - sx) + (ey - sy) * (ey - sy)) = 0 then
          [({ x := round sx, y := round sy } : CubePosition)]
        else dedupFirst (pathRaw sx sy ex ey width)) = _
      rw [if_neg hL0]
    have hraw : pathRaw sx sy ex ey width ≠ [] := by
      have hmem : ∃ c, c ∈ pathRaw sx sy ex ey width := by
        simp only [pathRaw]
        refine ⟨_, List.mem_flatMap.mpr ⟨0, ?_, List.mem_map.mpr ⟨0, ?_, rfl⟩⟩⟩
        · rw [List.mem_range]
          have hc1 : 0 < ⌈Real.sqrt ((ex - sx) * (ex - sx) + (ey - sy) * (ey - sy))⌉ :=
            Int.ceil_pos.mpr hLpos
          omega
        · rw [List.mem_range]
          omega
      obtain ⟨c, hc⟩ := hmem
      exact List.ne_nil_of_mem hc
    rw [hgp]
    exact ⟨dedupFirst_ne_nil _ hraw, dedupFirst_nodup _, dedupFirst_sublist _,
      fun c => (mem_dedupFirst _ c).symm, dedupFirst_pairwise_firstIdx _⟩

/-- C5 witness: the degenerate call returns the single rounded start point,
and a non-degenerate unit-width call is non-empty and duplicate-free. -/
theorem getPathCoordinates_spec_witness :
    getPathCoordinates 0 0 0 0 1 = [⟨0, 0⟩] ∧
    ¬((0:ℝ) = 3 ∧ (0:ℝ) = 0) ∧ (1:ℤ) ≤ 1 ∧
    getPathCoordinates 0 0 3 0 1 ≠ [] ∧ (getPathCoordinates 0 0 3 0 1).Nodup := by
  refine ⟨?_, by norm_num, le_refl 1, ?_, ?_⟩
  · have h := (getPathCoordinates_spec 0 0 0 0 1).1 ⟨rfl, rfl⟩
    simpa [round_zero] using h
  · exact ((getPathCoordinates_spec 0 0 3 0 1).2 (by norm_num) (by norm_num)).1
  · exact ((getPathCoordinates_spec 0 0 3 0 1).2 (by norm_num) (by norm_num)).2.1
